import Mathlib

/-!
Verification of the html2csv table-extraction core (package `htmltable`).

The Go sources are embedded shallowly:

* Go strings are Lean `String`s; the handful of `strings`/`strconv`
  operations the core uses (`TrimSpace`, `Split`, `Fields`, `Atoi`) are
  modelled below by structurally recursive functions over `String.data`,
  with whitespace taken to be `Char.isWhitespace` (Go uses the slightly
  larger `unicode.IsSpace` class; no claim depends on the difference).
* The HTML document tree produced by the external parser is the inductive
  `Node`: an element with tag, attributes and ordered children, or a text
  node.  Tag identity is compared as a string (Go compares `DataAtom`s).
* `[][]string` row grids are `List (List String)`.

Every function named after a Go function is a direct translation of that
function from `htmltable.go` / `pseudo.go`.
-/

namespace Html2Csv

/-! ## Modelled string primitives (Go `strings` / `strconv`) -/

/-- Go `strings.TrimSpace`: drop leading and trailing whitespace. -/
def trimSpace (s : String) : String :=
  ⟨((s.data.dropWhile Char.isWhitespace).reverse.dropWhile Char.isWhitespace).reverse⟩

/-- Split a character list at every occurrence of `sep` (Go
`strings.Split` with a one-character separator; empty pieces are kept). -/
def splitChars (sep : Char) : List Char → List (List Char)
  | [] => [[]]
  | c :: cs =>
    match splitChars sep cs with
    | [] => [[c]]
    | g :: gs => if c = sep then [] :: g :: gs else (c :: g) :: gs

/-- Go `strings.Split(s, sep)` for a one-character separator. -/
def splitOnChar (sep : Char) (s : String) : List String :=
  (splitChars sep s.data).map fun g => ⟨g⟩

/-- Go `strings.Fields`: whitespace-separated tokens, no empty tokens. -/
def fields (s : String) : List String :=
  ((splitChars ' ' (s.data.map fun c => if Char.isWhitespace c then ' ' else c)).map
    (fun g => (⟨g⟩ : String))).filter fun t => t != ""

/-- Numeric value of a digit list (most significant first). -/
def digitsVal (cs : List Char) : Nat :=
  cs.foldl (fun acc c => 10 * acc + (c.toNat - '0'.toNat)) 0

/-- Go `strconv.Atoi`: optional sign, at least one digit, nothing else,
and the value must fit in a 64-bit `int` (out-of-range input is an
error, i.e. `none`). -/
def atoi (s : String) : Option Int :=
  let signDigits : Int × List Char :=
    match s.data with
    | '+' :: rest => (1, rest)
    | '-' :: rest => (-1, rest)
    | rest => (1, rest)
  if signDigits.2.isEmpty || !signDigits.2.all Char.isDigit then none
  else
    let v : Int := signDigits.1 * (digitsVal signDigits.2 : Int)
    if v < -(2 ^ 63) || 2 ^ 63 ≤ v then none else some v

/-- Concatenation of a list of strings (Go repeated `WriteString`). -/
def strJoin : List String → String
  | [] => ""
  | s :: ss => s ++ strJoin ss

/-- Concatenation with a separator between consecutive elements. -/
def joinSep (sep : String) : List String → String
  | [] => ""
  | [s] => s
  | s :: ss => s ++ sep ++ joinSep sep ss

/-! ## Row grids and the grid normalizer (htmltable.go) -/

/-- A row of fields. -/
abbrev Row := List String

/-- A raw or normalized table grid. -/
abbrev Grid := List Row

/-- Maximum row width, as computed by the `maxCols` loops in
`trimEmptyColumns` and `normalize`. -/
def maxCols (rows : Grid) : Nat :=
  rows.foldl (fun m r => max m r.length) 0

/-- The column-keep test of `trimEmptyColumns`: column `c` is kept when
some row has a cell there whose trimmed value is non-empty
(`c < len(r) && strings.TrimSpace(r[c]) != ""`). -/
def colKept (rows : Grid) (c : Nat) : Bool :=
  rows.any fun r => decide (c < r.length) && (trimSpace (r.getD c "") != "")

/-- `trimEmptyColumns` from htmltable.go: drop the columns that are empty
or whitespace-only in every row, rebuilding each row over the kept
columns (`r.getD c ""` is Go's `c < len(r) ? r[c] : ""`). -/
def trimEmptyColumns (rows : Grid) : Grid :=
  if rows.isEmpty then rows
  else
    rows.map fun r =>
      (List.range (maxCols rows)).filterMap fun c =>
        if colKept rows c then some (r.getD c "") else none

/-- `dropEmptyRows` from htmltable.go: remove the rows whose every field
trims to the empty string. -/
def dropEmptyRows (rows : Grid) : Grid :=
  rows.filter fun r => r.any fun c => trimSpace c != ""

/-- `normalize` from htmltable.go: right-pad every row with empty fields
up to the maximum row width. -/
def normalize (rows : Grid) : Grid :=
  rows.map fun r => r ++ List.replicate (maxCols rows - r.length) ""

/-! ## The document tree and row extraction -/

/-- A node of the parsed HTML document: an element (tag, attribute
key/value pairs, ordered children) or a text node. -/
inductive Node where
  | element (tag : String) (attrs : List (String × String)) (children : List Node)
  | text (data : String)

/-- Tag test: `n.Type == html.ElementNode && n.DataAtom == tag`. -/
def isElem : Node → String → Bool
  | .element t _ _, tag => t == tag
  | .text _, _ => false

/-- The children of a node (a text node has none). -/
def childrenOf : Node → List Node
  | .element _ _ cs => cs
  | .text _ => []

/-- The attribute list of a node. -/
def attrsOf : Node → List (String × String)
  | .element _ a _ => a
  | .text _ => []

/-- The attribute-reading loop of `Parse`: scan the attribute list and
remember the value of the last pair with the given key ("" if absent). -/
def lastAttr (attrs : List (String × String)) (key : String) : String :=
  attrs.foldl (fun acc a => if a.1 = key then a.2 else acc) ""

mutual

/-- `textContent` from htmltable.go: concatenation of all descendant
text-node data, in document order. -/
def textContent : Node → String
  | .text s => s
  | .element _ _ cs => textContentList cs

/-- Helper of `textContent` ranging over a child list. -/
def textContentList : List Node → String
  | [] => ""
  | c :: cs => textContent c ++ textContentList cs

end

/-- The cell loop of `extractRows`: for a `<tr>` node, the trimmed text
of each direct child that is a `<td>` or `<th>` element. -/
def trCells (n : Node) : Row :=
  (childrenOf n).filterMap fun c =>
    if isElem c "td" || isElem c "th" then some (trimSpace (textContent c)) else none

mutual

/-- The row-collecting walk of `extractRows`: every `<tr>` anywhere in
the subtree contributes its direct-child cells, rows with zero cells
being skipped; the walk recurses into every child. -/
def collectRows : Node → Grid
  | .text _ => []
  | .element tag attrs cs =>
    (if tag = "tr" then
        (if (trCells (.element tag attrs cs)).length > 0
          then [trCells (.element tag attrs cs)] else [])
      else []) ++ collectRowsList cs

/-- Helper of `collectRows` ranging over a child list. -/
def collectRowsList : List Node → Grid
  | [] => []
  | c :: cs => collectRows c ++ collectRowsList cs

end

/-- `extractRows` from htmltable.go: collect the raw rows, then apply the
three normalizer passes in order. -/
def extractRows (n : Node) : Grid :=
  normalize (dropEmptyRows (trimEmptyColumns (collectRows n)))

/-! ## The table locator (`Parse`) -/

/-- One discovered table (Go `Table`). -/
structure Table where
  Index : Int
  ID : String
  Name : String
  Rows : Grid
deriving DecidableEq

mutual

/-- The traversal closure of `Parse`: thread the running table counter
through a preorder walk; on every `<table>` element increment the
counter first, then append a record only when the extracted grid is
non-empty. Returns the final counter and the records in order. -/
def walkNode : Node → Int → Int × List Table
  | .text _, idx => (idx, [])
  | .element tag attrs cs, idx =>
    if tag = "table" then
      let idx1 := idx + 1
      let rows := extractRows (.element tag attrs cs)
      let here : List Table :=
        if rows.length > 0 then
          [⟨idx1, lastAttr attrs "id", lastAttr attrs "name", rows⟩]
        else []
      let rest := walkList cs idx1
      (rest.1, here ++ rest.2)
    else walkList cs idx

/-- Helper of `walkNode` ranging over a child list. -/
def walkList : List Node → Int → Int × List Table
  | [], idx => (idx, [])
  | c :: cs, idx =>
    let r1 := walkNode c idx
    let r2 := walkList cs r1.1
    (r2.1, r1.2 ++ r2.2)

end

/-- The table list produced by the document walk of `Parse`, before the
directory-listing fallback is considered. -/
def locatorTables (doc : Node) : List Table :=
  (walkNode doc 0).2

/-! ## The directory-listing fallback (pseudo.go) -/

mutual

/-- `firstElement` from pseudo.go: first element with the given tag, in
preorder (the node itself, then its children left to right). -/
def firstElement : Node → String → Option Node
  | .text _, _ => none
  | .element t a cs, tag =>
    if t = tag then some (.element t a cs) else firstElementList cs tag

/-- Helper of `firstElement` ranging over a child list. -/
def firstElementList : List Node → String → Option Node
  | [], _ => none
  | c :: cs, tag =>
    match firstElement c tag with
    | some n => some n
    | none => firstElementList cs tag

end

/-- The data-row builder of `parseDirectoryListing`: the anchor's trimmed
text, then — when the following text splits into at least two tokens —
the first two tokens joined by one space, then — when there are at least
three — the third token. -/
def dirRow (text0 meta : String) : Row :=
  let fs := fields meta
  let row1 : Row := [text0]
  let row2 : Row :=
    if 2 ≤ fs.length then row1 ++ [fs.getD 0 "" ++ " " ++ fs.getD 1 ""] else row1
  if 3 ≤ fs.length then row2 ++ [fs.getD 2 ""] else row2

/-- The `meta` lookup of `parseDirectoryListing`: the trimmed data of the
immediately-following sibling when that sibling is a text node, else "". -/
def metaOf : List Node → String
  | .text s :: _ => trimSpace s
  | _ => ""

/-- The scanning loop of `parseDirectoryListing` over the direct children
of the `<pre>` block: an `<hr>` flips the header flag off; anchors before
it contribute header labels, anchors after it contribute data rows. -/
def scanPre : List Node → Bool → List String × Grid
  | [], _ => ([], [])
  | n :: rest, inHeader =>
    if isElem n "hr" then scanPre rest false
    else if isElem n "a" then
      if inHeader then
        let hr := scanPre rest inHeader
        (trimSpace (textContent n) :: hr.1, hr.2)
      else
        let hr := scanPre rest inHeader
        (hr.1, dirRow (trimSpace (textContent n)) (metaOf rest) :: hr.2)
    else scanPre rest inHeader

/-- The row-width pass of `parseDirectoryListing`: append empty fields
while the row is shorter than `w`. -/
def padTo (w : Nat) (r : Row) : Row :=
  r ++ List.replicate (w - r.length) ""

/-- `parseDirectoryListing` from pseudo.go: locate the first `<pre>`,
scan its children into header labels and data rows, fail when either
list is empty, otherwise emit the synthetic table. -/
def parseDirectoryListing (doc : Node) : Option Table :=
  match firstElement doc "pre" with
  | none => none
  | some pre =>
    let hr := scanPre (childrenOf pre) true
    if hr.1 = [] ∨ hr.2 = [] then none
    else some ⟨1, "", "directory", hr.1 :: hr.2.map (padTo hr.1.length)⟩

/-- `Parse` from htmltable.go, after the external HTML parser has
produced the document tree: the locator list, or on an empty locator
list the directory-listing fallback. -/
def Parse (doc : Node) : List Table :=
  let tables := locatorTables doc
  if tables.isEmpty then
    match parseDirectoryListing doc with
    | some t => [t]
    | none => []
  else tables

/-! ## The selector -/

/-- Go `Selector`: the two match sets (Go uses maps as sets; only
membership is ever consulted, so lists model them). -/
structure Selector where
  Indexes : List Int
  Names : List String
deriving DecidableEq

/-- The part loop of `ParseSelector`: trim, skip empties, an integer
part must be ≥ 1 (else the whole parse errors, `none`), anything else
joins the name set. -/
def parseParts : List String → Selector → Option Selector
  | [], sel => some sel
  | part :: rest, sel =>
    let p := trimSpace part
    if p = "" then parseParts rest sel
    else
      match atoi p with
      | some i =>
        if i ≤ 0 then none
        else parseParts rest ⟨sel.Indexes ++ [i], sel.Names⟩
      | none => parseParts rest ⟨sel.Indexes, sel.Names ++ [p]⟩

/-- `ParseSelector` from htmltable.go (`none` is the invalid-selector
error). -/
def ParseSelector (s : String) : Option Selector :=
  if trimSpace s = "" then some ⟨[], []⟩
  else parseParts (splitOnChar ',' s) ⟨[], []⟩

/-- The filter loop of `Selector.Apply`: keep a table on its first
matching criterion — index, then id, then name. -/
def applyLoop (s : Selector) : List Table → List Table
  | [] => []
  | t :: ts =>
    if s.Indexes.contains t.Index then t :: applyLoop s ts
    else if s.Names.contains t.ID then t :: applyLoop s ts
    else if s.Names.contains t.Name then t :: applyLoop s ts
    else applyLoop s ts

/-- `Selector.Apply` from htmltable.go: the identity on both-empty
selectors, otherwise the filter loop. -/
def Selector.Apply (s : Selector) (tables : List Table) : List Table :=
  if s.Indexes.isEmpty && s.Names.isEmpty then tables
  else applyLoop s tables

/-! ## The CSV encoder (`CSVEncoder.Encode` over Go `encoding/csv`)

The quoting discipline is modelled from the Go standard library
`csv.Writer` with its default `UseCRLF = false`; the special branch for
a space delimiter is not modelled (no claim uses a space delimiter). -/

/-- Double every quote character (the quoted-field rewriting of
`csv.Writer.Write` when `UseCRLF` is false). -/
def escQuotes : List Char → List Char
  | [] => []
  | c :: cs => if c = '"' then '"' :: '"' :: escQuotes cs else c :: escQuotes cs

/-- `csv.Writer.fieldNeedsQuotes`: empty fields never, the literal
backslash-dot always, otherwise presence of the delimiter, a quote, CR
or LF, or a leading whitespace rune. -/
def fieldNeedsQuotes (comma : Char) (field : String) : Bool :=
  if field = "" then false
  else if field = "\\." then true
  else if field.data.contains comma || field.data.contains '"'
      || field.data.contains '\r' || field.data.contains '\n' then true
  else
    match field.data with
    | c :: _ => Char.isWhitespace c
    | [] => false

/-- One output field: quoted (with doubled quotes) when needed, byte-for-
byte otherwise. -/
def encodeField (comma : Char) (f : String) : String :=
  if fieldNeedsQuotes comma f then "\"" ++ (⟨escQuotes f.data⟩ : String) ++ "\"" else f

/-- `csv.Writer.Write`: delimiter-joined encoded fields and a newline;
the empty record is a bare newline. -/
def writeRecord (comma : Char) (fs : List String) : String :=
  joinSep (String.singleton comma) (fs.map (encodeField comma)) ++ "\n"

/-- The row loop of `CSVEncoder.Encode` over one table. -/
def encodeRows (comma : Char) : Grid → String
  | [] => ""
  | r :: rs => writeRecord comma r ++ encodeRows comma rs

/-- `CSVEncoder.Encode`: each table's rows as records, with one empty
record written after each table as the blank-line separator. -/
def Encode (comma : Char) : List Table → String
  | [] => ""
  | t :: ts => encodeRows comma t.Rows ++ writeRecord comma [] ++ Encode comma ts

/-! ## Specification-side definitions

These restate parts of the specification in its own words, for comparison
with the translated code above. -/

/-- The kept-column indices of the spec's trim pass: all `c` below the
maximum row width at which some row holds a non-whitespace-only value. -/
def keptIdx (rows : Grid) : List Nat :=
  (List.range (maxCols rows)).filter fun c => colKept rows c

mutual

/-- Every `<table>` element of the document, in preorder traversal
order (a node before its children, children left to right). -/
def tableNodes : Node → List Node
  | .text _ => []
  | .element tag attrs cs =>
    (if tag = "table" then [Node.element tag attrs cs] else []) ++ tableNodesList cs

/-- Helper of `tableNodes` ranging over a child list. -/
def tableNodesList : List Node → List Node
  | [] => []
  | c :: cs => tableNodes c ++ tableNodesList cs

end

/-- The table record the locator builds for table element `n` under
counter value `i`. -/
def mkTable (i : Int) (n : Node) : Table :=
  ⟨i, lastAttr (attrsOf n) "id", lastAttr (attrsOf n) "name", extractRows n⟩

/-- The spec's numbering of the table elements `ms` when the counter has
already reached `k`: the next element is numbered `k + 1` whether or not
it is kept, and it is kept exactly when its extracted grid is
non-empty. -/
def numberFrom (k : Int) : List Node → List Table
  | [] => []
  | m :: ms =>
    (if (extractRows m).length > 0 then [mkTable (k + 1) m] else []) ++ numberFrom (k + 1) ms

/-- Rectangularity test: every row as long as the first. -/
def isRect (g : Grid) : Bool :=
  g.all fun r => r.length == (g.headD []).length

/-- The claim's wording of `Selector.Apply` (claim C7): a table matches
on its id or name only when that attribute is non-empty. -/
def applyClaim (s : Selector) (tables : List Table) : List Table :=
  if s.Indexes.isEmpty && s.Names.isEmpty then tables
  else
    tables.filter fun t =>
      s.Indexes.contains t.Index || (t.ID != "" && s.Names.contains t.ID)
        || (t.Name != "" && s.Names.contains t.Name)

/-- A selector part that parses as an integer below one (the invalid
case of `ParseSelector`). -/
def badPart (p : String) : Bool :=
  match atoi p with
  | some i => decide (i ≤ 0)
  | none => false

/-- The spec's reading of `ParseSelector` on the cleaned part list: fail
when any part is a non-positive integer, otherwise the integer parts
form the index set and the rest the name set, in order. -/
def partsSpecRun (q : List String) : Option Selector :=
  if q.any badPart then none
  else some ⟨q.filterMap atoi, q.filter fun p => (atoi p).isNone⟩

/-! ## Concrete documents used by witnesses and counterexamples -/

/-- A minimal document with one one-cell table (claim C2's witness). -/
def oneCellDoc : Node :=
  .element "#document" [] [.element "table" [] [
    .element "tr" [] [.element "td" [] [.text "x"]]]]

/-- A directory-listing page whose single header anchor is narrower than
its three-field data row (claim C4's counterexample). -/
def wideRowDoc : Node :=
  .element "#document" [] [.element "pre" [] [
    .element "a" [] [.text "H"],
    .element "hr" [] [],
    .element "a" [] [.text "x"],
    .text " 2025-01-01 00:00 1K"]]

/-- A document whose only content is a table nested inside the cell of
another table, both holding the text `s` (claim C5). -/
def nestedDoc (s : String) : Node :=
  .element "#document" [] [
    .element "table" [] [
      .element "tr" [] [
        .element "td" [] [
          .element "table" [] [
            .element "tr" [] [.element "td" [] [.text s]]]]]]]

/-- A directory-listing page with one header anchor, a rule and one data
anchor (claim C6's witness). -/
def listingDoc : Node :=
  .element "#document" [] [.element "body" [] [.element "pre" [] [
    .element "a" [("href","?C=N;O=D")] [.text "Name"],
    .element "hr" [] [],
    .element "a" [("href","x")] [.text "x"],
    .text " 2025-01-01 00:00  1K"]]]

/-- The table list of the spec's selector-matching example (claim C7's
witness). -/
def exTables : List Table :=
  [⟨1, "t1", "alpha", []⟩, ⟨2, "t2", "beta", []⟩, ⟨3, "", "gamma", []⟩]

/-! ## General helper lemmas -/

theorem filterMap_ite_eq {α β : Type} (p : α → Bool) (f : α → β) (l : List α) :
    (l.filterMap fun a => if p a then some (f a) else none) = (l.filter p).map f := by
  induction l with
  | nil => rfl
  | cons a l ih =>
    by_cases h : p a <;>
      simp [List.filterMap_cons, List.filter_cons, h, ih]

theorem foldl_max_le_init (rows : Grid) (a : Nat) :
    a ≤ rows.foldl (fun m r => max m r.length) a := by
  induction rows generalizing a with
  | nil => simp
  | cons r rs ih =>
    exact le_trans (le_max_left a r.length) (ih (max a r.length))

theorem maxCols_le_of_mem {rows : Grid} {r : Row} (h : r ∈ rows) :
    r.length ≤ maxCols rows := by
  unfold maxCols
  generalize 0 = a
  induction rows generalizing a with
  | nil => cases h
  | cons q rs ih =>
    rcases List.mem_cons.mp h with h' | h'
    · subst h'
      exact le_trans (le_max_right a r.length) (foldl_max_le_init rs _)
    · exact ih h' _

theorem trimSpace_empty : trimSpace "" = "" := by decide

theorem colKept_iff (rows : Grid) (c : Nat) :
    colKept rows c = true ↔ ∃ r ∈ rows, trimSpace (r.getD c "") ≠ "" := by
  unfold colKept
  rw [List.any_eq_true]
  constructor
  · rintro ⟨r, hr, hb⟩
    simp only [Bool.and_eq_true, decide_eq_true_eq, bne_iff_ne, ne_eq] at hb
    exact ⟨r, hr, hb.2⟩
  · rintro ⟨r, hr, hb⟩
    refine ⟨r, hr, ?_⟩
    simp only [Bool.and_eq_true, decide_eq_true_eq, bne_iff_ne, ne_eq]
    refine ⟨?_, hb⟩
    by_contra hlt
    push_neg at hlt
    rw [List.getD_eq_default _ _ hlt, trimSpace_empty] at hb
    exact hb rfl

/-! ## Claim C1 -/

/-- C1: the column-trimming pass keeps, of the column indices below the
maximum row width, exactly those at which some row holds a
non-whitespace-only value (missing cells reading as empty), and rebuilds
every row as precisely the kept columns in original order with an empty
string where the row had no cell; a column empty or whitespace-only in
every row is therefore absent from every output row. -/
theorem trimEmptyColumns_spec (rows : Grid) :
    trimEmptyColumns rows = rows.map (fun r => (keptIdx rows).map fun c => r.getD c "")
    ∧ ∀ c : Nat,
        c ∈ keptIdx rows ↔ c < maxCols rows ∧ ∃ r ∈ rows, trimSpace (r.getD c "") ≠ "" := by
  constructor
  · cases rows with
    | nil => rfl
    | cons r rs =>
      unfold trimEmptyColumns keptIdx
      simp only [List.isEmpty_cons, if_neg Bool.false_ne_true]
      refine List.map_congr_left fun q _ => ?_
      exact filterMap_ite_eq (fun c => colKept (r :: rs) c) (fun c => q.getD c "") _
  · intro c
    rw [keptIdx, List.mem_filter, List.mem_range, colKept_iff]

/-! ## The locator walk, characterized -/

theorem numberFrom_append (k : Int) (xs ys : List Node) :
    numberFrom k (xs ++ ys) = numberFrom k xs ++ numberFrom (k + xs.length) ys := by
  induction xs generalizing k with
  | nil => simp [numberFrom]
  | cons m ms ih =>
    simp only [List.cons_append, numberFrom, List.length_cons, List.append_assoc,
      List.append_eq]
    rw [ih (k + 1)]
    have h2 : k + 1 + (ms.length : Int) = k + (((ms.length + 1 : Nat) : Int)) := by
      push_cast; ring
    rw [h2]

mutual

theorem walkNode_eq (n : Node) (k : Int) :
    walkNode n k = (k + ((tableNodes n).length : Int), numberFrom k (tableNodes n)) := by
  cases n with
  | text s => simp [walkNode, tableNodes, numberFrom]
  | element tag attrs cs =>
    by_cases h : tag = "table"
    · simp only [walkNode, tableNodes, if_pos h, walkList_eq cs (k + 1),
        List.singleton_append, numberFrom, List.length_cons, mkTable, attrsOf,
        Prod.mk.injEq]
      refine ⟨by push_cast; ring, trivial⟩
    · simp only [walkNode, tableNodes, if_neg h, walkList_eq cs k, List.nil_append]

theorem walkList_eq (l : List Node) (k : Int) :
    walkList l k = (k + ((tableNodesList l).length : Int), numberFrom k (tableNodesList l)) := by
  cases l with
  | nil => simp [walkList, tableNodesList, numberFrom]
  | cons c cs =>
    simp only [walkList, walkNode_eq c k, walkList_eq cs (k + (tableNodes c).length),
      tableNodesList, numberFrom_append, List.length_append, Prod.mk.injEq]
    refine ⟨by push_cast; ring, trivial⟩

end

theorem mem_numberFrom {k : Int} {ms : List Node} {t : Table} (h : t ∈ numberFrom k ms) :
    ∃ m ∈ ms, ∃ i : Int, t = mkTable i m ∧ (extractRows m).length > 0 ∧ k < i := by
  induction ms generalizing k with
  | nil => cases h
  | cons m ms ih =>
    rw [numberFrom] at h
    rcases List.mem_append.mp h with h' | h'
    · by_cases hr : (extractRows m).length > 0
      · rw [if_pos hr, List.mem_singleton] at h'
        exact ⟨m, List.mem_cons_self m ms, k + 1, h', hr, by omega⟩
      · rw [if_neg hr] at h'
        cases h'
    · obtain ⟨m', hm', i, ht, hr, hk⟩ := ih h'
      exact ⟨m', List.mem_cons_of_mem m hm', i, ht, hr, by omega⟩

theorem numberFrom_index_gt {k : Int} {ms : List Node} {t : Table}
    (h : t ∈ numberFrom k ms) : k < t.Index := by
  obtain ⟨m, _, i, ht, _, hk⟩ := mem_numberFrom h
  rw [ht]
  exact hk

theorem numberFrom_pairwise (k : Int) (ms : List Node) :
    List.Pairwise (· < ·) ((numberFrom k ms).map Table.Index) := by
  induction ms generalizing k with
  | nil => simp [numberFrom]
  | cons m ms ih =>
    rw [numberFrom]
    by_cases hr : (extractRows m).length > 0
    · rw [if_pos hr, List.singleton_append, List.map_cons, List.pairwise_cons]
      refine ⟨?_, ih (k + 1)⟩
      intro i hi
      obtain ⟨t, ht, rfl⟩ := List.mem_map.mp hi
      have := numberFrom_index_gt ht
      simp only [mkTable]
      omega
    · rw [if_neg hr, List.nil_append]
      exact ih (k + 1)

theorem locatorTables_eq (doc : Node) :
    locatorTables doc = numberFrom 0 (tableNodes doc) := by
  unfold locatorTables
  rw [walkNode_eq doc 0]

/-! ## Claim C3 -/

/-- C3: the locator numbers every table element in document order,
incrementing before the row check, so a table discarded for yielding no
rows still consumes its number; the returned list is the preorder table
elements numbered from 1, filtered to those with rows, and consequently
the returned Index values are strictly increasing positive integers
recording each kept table's encounter position among all table
elements. -/
theorem Parse_index_spec (doc : Node) :
    locatorTables doc = numberFrom 0 (tableNodes doc)
    ∧ List.Pairwise (· < ·) ((locatorTables doc).map Table.Index)
    ∧ (locatorTables doc).all (fun t => decide (0 < t.Index)) = true := by
  refine ⟨locatorTables_eq doc, ?_, ?_⟩
  · rw [locatorTables_eq doc]
    exact numberFrom_pairwise 0 _
  · rw [List.all_eq_true]
    intro t ht
    rw [locatorTables_eq doc] at ht
    simpa using numberFrom_index_gt ht

/-! ## Claim C2 -/

theorem mem_dropEmptyRows {rows : Grid} {r : Row} (h : r ∈ dropEmptyRows rows) :
    ∃ f ∈ r, trimSpace f ≠ "" := by
  have hb := (List.mem_filter.mp h).2
  rw [List.any_eq_true] at hb
  obtain ⟨f, hf, hne⟩ := hb
  exact ⟨f, hf, by simpa using hne⟩

theorem extractRows_row_has_content {n : Node} {row : Row} (h : row ∈ extractRows n) :
    ∃ f ∈ row, trimSpace f ≠ "" := by
  unfold extractRows normalize at h
  obtain ⟨r, hr, rfl⟩ := List.mem_map.mp h
  obtain ⟨f, hf, hne⟩ := mem_dropEmptyRows hr
  exact ⟨f, List.mem_append_left _ hf, hne⟩

/-- C2: every row of every table the locator extracts retains at least
one field that is not empty or whitespace-only — the row-dropping pass
removes all all-empty rows, and the later padding pass cannot recreate
one — so no all-empty row reaches the output grid of any extracted
table. -/
theorem dropEmptyRows_spec (doc : Node) (t : Table) (row : Row)
    (ht : t ∈ locatorTables doc) (hr : row ∈ t.Rows) :
    ∃ f ∈ row, trimSpace f ≠ "" := by
  rw [locatorTables_eq doc] at ht
  obtain ⟨m, _, i, rfl, _, _⟩ := mem_numberFrom ht
  exact extractRows_row_has_content hr

/-- Witness for C2 at a concrete one-cell document. -/
theorem dropEmptyRows_spec_witness :
    (⟨1, "", "", [["x"]]⟩ : Table) ∈ locatorTables oneCellDoc
      ∧ ["x"] ∈ (⟨1, "", "", [["x"]]⟩ : Table).Rows
      ∧ ∃ f ∈ ["x"], trimSpace f ≠ "" :=
  ⟨by decide, by decide,
    dropEmptyRows_spec oneCellDoc ⟨1, "", "", [["x"]]⟩ ["x"] (by decide) (by decide)⟩

/-! ## Claim C4 -/

theorem padded_length {rows : Grid} {r : Row} (h : r ∈ rows) :
    (r ++ List.replicate (maxCols rows - r.length) "").length = maxCols rows := by
  have := maxCols_le_of_mem h
  simp only [List.length_append, List.length_replicate]
  omega

theorem isRect_normalize (g : Grid) : isRect (normalize g) = true := by
  cases hg : g with
  | nil => rfl
  | cons r rs =>
    rw [isRect, List.all_eq_true]
    intro x hx
    obtain ⟨q, hq, rfl⟩ := List.mem_map.mp hx
    rw [normalize, List.map_cons, List.headD_cons]
    subst hg
    rw [padded_length hq, padded_length (List.mem_cons_self r rs)]
    simp

theorem parseDirectoryListing_shape {doc : Node} {t : Table}
    (h : parseDirectoryListing doc = some t) :
    ∃ pre, firstElement doc "pre" = some pre
      ∧ (scanPre (childrenOf pre) true).1 ≠ []
      ∧ (scanPre (childrenOf pre) true).2 ≠ []
      ∧ t = ⟨1, "", "directory",
          (scanPre (childrenOf pre) true).1 ::
            (scanPre (childrenOf pre) true).2.map
              (padTo (scanPre (childrenOf pre) true).1.length)⟩ := by
  unfold parseDirectoryListing at h
  split at h
  next => cases h
  next pre hfe =>
    dsimp only at h
    split at h
    next hc => cases h
    next hc =>
      push_neg at hc
      exact ⟨pre, hfe, hc.1, hc.2, ((Option.some.injEq _ _).mp h).symm⟩

/-- Counterexample to C4: on a document whose only table is the
directory-listing fallback built from a one-anchor header and a
three-field data row, `Parse` returns a table whose two rows have
lengths 1 and 3 — not every table returned by `Parse` is rectangular. -/
theorem Parse_rect_counterexample :
    (Parse wideRowDoc).map (fun t => t.Rows.map List.length) = [[1, 3]]
      ∧ (Parse wideRowDoc).all (fun t => isRect t.Rows) = false := by
  exact ⟨by decide, by decide⟩

/-- C4 as amended: no table returned by `Parse` has zero rows, and every
table produced by the table locator is rectangular; the rectangularity
guarantee does not extend to the directory-listing fallback table, whose
data rows can exceed the header's width. -/
theorem Parse_rect_amended (doc : Node) :
    (Parse doc).all (fun t => decide (0 < t.Rows.length)) = true
    ∧ (locatorTables doc).all (fun t => isRect t.Rows) = true := by
  constructor
  · rw [List.all_eq_true]
    intro t ht
    rw [decide_eq_true_eq]
    unfold Parse at ht
    by_cases he : (locatorTables doc).isEmpty
    · rw [if_pos he] at ht
      cases hd : parseDirectoryListing doc with
      | none => rw [hd] at ht; cases ht
      | some u =>
        rw [hd, List.mem_singleton] at ht
        subst ht
        obtain ⟨pre, _, _, _, rfl⟩ := parseDirectoryListing_shape hd
        simp
    · rw [if_neg he] at ht
      rw [locatorTables_eq doc] at ht
      obtain ⟨m, _, i, rfl, hpos, _⟩ := mem_numberFrom ht
      exact hpos
  · rw [List.all_eq_true]
    intro t ht
    rw [locatorTables_eq doc] at ht
    obtain ⟨m, _, i, rfl, _, _⟩ := mem_numberFrom ht
    exact isRect_normalize _

/-! ## Claim C6 -/

theorem scanPre_no_hr {l : List Node}
    (h : l.all (fun n => !isElem n "hr") = true) : (scanPre l true).2 = [] := by
  induction l with
  | nil => rfl
  | cons n rest ih =>
    rw [List.all_cons, Bool.and_eq_true, Bool.not_eq_true'] at h
    rw [scanPre, if_neg (by simp [h.1])]
    by_cases ha : isElem n "a" = true
    · rw [if_pos ha, if_pos rfl]
      exact ih h.2
    · rw [if_neg ha]
      exact ih h.2

/-- C6: the fallback is consulted only when the locator finds no table,
and fails exactly when there is no preformatted block, or the header
list is empty, or the data-row list is empty — the latter necessarily
when no horizontal rule occurs among the block's children, since every
anchor then counts as header; on success `Parse` returns exactly the one
synthetic table, with index 1, empty id, name "directory", the header as
first row and every data row padded towards the header's width. -/
theorem parseDirectoryListing_spec (doc : Node) :
    (locatorTables doc ≠ [] → Parse doc = locatorTables doc)
    ∧ (∀ t, locatorTables doc = [] → parseDirectoryListing doc = some t → Parse doc = [t])
    ∧ (firstElement doc "pre" = none → parseDirectoryListing doc = none)
    ∧ (∀ pre, firstElement doc "pre" = some pre →
        (parseDirectoryListing doc = none ↔
          (scanPre (childrenOf pre) true).1 = [] ∨ (scanPre (childrenOf pre) true).2 = []))
    ∧ (∀ pre, firstElement doc "pre" = some pre →
        (childrenOf pre).all (fun n => !isElem n "hr") = true →
        (scanPre (childrenOf pre) true).2 = [])
    ∧ (∀ pre t, firstElement doc "pre" = some pre → parseDirectoryListing doc = some t →
        t.Index = 1 ∧ t.ID = "" ∧ t.Name = "directory"
          ∧ t.Rows = (scanPre (childrenOf pre) true).1 ::
              (scanPre (childrenOf pre) true).2.map
                (padTo (scanPre (childrenOf pre) true).1.length)) := by
  refine ⟨?_, ?_, ?_, ?_, ?_, ?_⟩
  · intro h
    rw [Parse, if_neg]
    simp [List.isEmpty_iff, h]
  · intro t he hd
    rw [Parse, if_pos (by simp [List.isEmpty_iff, he]), hd]
  · intro h
    rw [parseDirectoryListing, h]
  · intro pre hfe
    rw [parseDirectoryListing, hfe]
    dsimp only
    constructor
    · intro h
      by_contra hc
      rw [if_neg hc] at h
      cases h
    · intro h
      rw [if_pos h]
  · intro pre _ h
    exact scanPre_no_hr h
  · intro pre t hfe hd
    rw [parseDirectoryListing, hfe] at hd
    dsimp only at hd
    split at hd
    next => cases hd
    next =>
      have := ((Option.some.injEq _ _).mp hd).symm
      subst this
      exact ⟨rfl, rfl, rfl, rfl⟩

/-- Witness for C6 at a concrete directory-listing page. -/
theorem parseDirectoryListing_spec_witness :
    locatorTables listingDoc = []
      ∧ parseDirectoryListing listingDoc
          = some ⟨1, "", "directory", [["Name"], ["x", "2025-01-01 00:00", "1K"]]⟩
      ∧ Parse listingDoc = [⟨1, "", "directory", [["Name"], ["x", "2025-01-01 00:00", "1K"]]⟩] :=
  ⟨by decide, by decide,
    (parseDirectoryListing_spec listingDoc).2.1
      ⟨1, "", "directory", [["Name"], ["x", "2025-01-01 00:00", "1K"]]⟩
      (by decide) (by decide)⟩

/-! ## Claim C7 -/

theorem applyLoop_eq_filter (s : Selector) (ts : List Table) :
    applyLoop s ts =
      ts.filter fun t =>
        s.Indexes.contains t.Index || s.Names.contains t.ID || s.Names.contains t.Name := by
  induction ts with
  | nil => rfl
  | cons t ts ih =>
    rw [applyLoop, List.filter_cons]
    cases h1 : s.Indexes.contains t.Index <;>
      cases h2 : s.Names.contains t.ID <;>
        cases h3 : s.Names.contains t.Name <;>
          simp [h1, h2, h3, ih]

/-- Counterexample to C7: with the hand-built selector whose name set
holds the empty string, `Apply` keeps a table whose id and name are both
empty, while the claim's wording (id or name must be non-empty to match)
would discard it — the code performs no non-emptiness check. -/
theorem Apply_counterexample :
    Selector.Apply ⟨[], [""]⟩ [⟨1, "", "", []⟩] = [⟨1, "", "", []⟩]
      ∧ applyClaim ⟨[], [""]⟩ [⟨1, "", "", []⟩] = []
      ∧ Selector.Apply ⟨[], [""]⟩ [⟨1, "", "", []⟩]
          ≠ applyClaim ⟨[], [""]⟩ [⟨1, "", "", []⟩] := by
  exact ⟨by decide, by decide, by decide⟩

/-- C7 as amended: an empty selector is the identity; otherwise `Apply`
returns, in original relative order and each at most once (the result is
a sublist of the input), exactly the tables whose index is in the index
set or whose id or whose name is in the name set — with no requirement
that the id or name be non-empty (the parser never produces an empty
name-set entry, so the difference only shows on hand-built selectors). -/
theorem Apply_spec (s : Selector) (ts : List Table) :
    (s.Indexes = [] ∧ s.Names = [] → s.Apply ts = ts)
    ∧ (¬(s.Indexes = [] ∧ s.Names = []) →
        s.Apply ts =
          ts.filter fun t =>
            s.Indexes.contains t.Index || s.Names.contains t.ID || s.Names.contains t.Name)
    ∧ (s.Apply ts).Sublist ts := by
  refine ⟨?_, ?_, ?_⟩
  · rintro ⟨h1, h2⟩
    rw [Selector.Apply, if_pos (by simp [h1, h2])]
  · intro h
    rw [Selector.Apply, if_neg, applyLoop_eq_filter]
    rw [not_and_or] at h
    rcases h with h | h <;> simp [List.isEmpty_iff, h]
  · rw [Selector.Apply]
    split
    · exact List.Sublist.refl ts
    · rw [applyLoop_eq_filter]
      exact List.filter_sublist ts

/-- Witness for C7 at the spec's selector-matching example: index 2,
ids and names t1 and gamma select all three tables in original order. -/
theorem Apply_spec_witness :
    ¬((⟨[2], ["t1", "gamma"]⟩ : Selector).Indexes = []
        ∧ (⟨[2], ["t1", "gamma"]⟩ : Selector).Names = [])
      ∧ Selector.Apply ⟨[2], ["t1", "gamma"]⟩ exTables = exTables := by
  refine ⟨by decide, ?_⟩
  rw [(Apply_spec ⟨[2], ["t1", "gamma"]⟩ exTables).2.1 (by decide)]
  decide

/-! ## Claim C8 -/

theorem parseParts_eq (parts : List String) (acc : Selector) :
    parseParts parts acc =
      (if ((parts.map trimSpace).filter fun p => p != "").any badPart then none
       else
         some ⟨acc.Indexes ++ ((parts.map trimSpace).filter fun p => p != "").filterMap atoi,
           acc.Names ++ ((parts.map trimSpace).filter fun p => p != "").filter
             fun p => (atoi p).isNone⟩) := by
  induction parts generalizing acc with
  | nil => simp [parseParts]
  | cons part rest ih =>
    rw [parseParts]
    by_cases hp : trimSpace part = ""
    · rw [if_pos hp, ih acc]
      simp [hp]
    · rw [if_neg hp]
      have hpb : (trimSpace part != "") = true := by simp [hp]
      cases ha : atoi (trimSpace part) with
      | some i =>
        dsimp only
        by_cases hi : i ≤ 0
        · rw [if_pos hi]
          have hb : badPart (trimSpace part) = true := by simp [badPart, ha, hi]
          simp [List.filter_cons, hpb, hb]
        · rw [if_neg hi]
          rw [ih ⟨acc.Indexes ++ [i], acc.Names⟩]
          have hb : badPart (trimSpace part) = false := by simp [badPart, ha, hi]
          simp [List.filter_cons, hpb, hb, List.filterMap_cons, ha]
      | none =>
        dsimp only
        rw [ih ⟨acc.Indexes, acc.Names ++ [trimSpace part]⟩]
        have hb : badPart (trimSpace part) = false := by simp [badPart, ha]
        simp [List.filter_cons, hpb, hb, List.filterMap_cons, ha]

/-- C8: `ParseSelector` splits on commas, trims the parts and ignores
the empty ones; a part parsing as an integer below one (for example "0"
or "-1") makes the whole parse fail, every other non-empty part joins
the name set and the remaining integer parts the index set, and an
empty or all-whitespace input yields the empty identity selector with
no error. -/
theorem ParseSelector_spec (s : String) :
    (trimSpace s = "" → ParseSelector s = some ⟨[], []⟩)
    ∧ (trimSpace s ≠ "" →
        ParseSelector s =
          partsSpecRun (((splitOnChar ',' s).map trimSpace).filter fun p => p != ""))
    ∧ ParseSelector "0" = none
    ∧ ParseSelector "-1" = none := by
  refine ⟨?_, ?_, by decide, by decide⟩
  · intro h
    rw [ParseSelector, if_pos h]
  · intro h
    rw [ParseSelector, if_neg h, parseParts_eq, partsSpecRun]
    split <;> simp

/-- Witness for C8: an all-whitespace selector is the identity and a
mixed selector splits into its index and name parts. -/
theorem ParseSelector_spec_witness :
    ParseSelector "   " = some ⟨[], []⟩
      ∧ ParseSelector " 1,foo, 2 ,bar,, " = some ⟨[1, 2], ["foo", "bar"]⟩ := by
  constructor
  · exact (ParseSelector_spec "   ").1 (by decide)
  · rw [(ParseSelector_spec " 1,foo, 2 ,bar,, ").2.1 (by decide)]
    decide

/-! ## Claim C9 -/

theorem strAppend_assoc (a b c : String) : a ++ b ++ c = a ++ (b ++ c) := by
  obtain ⟨da⟩ := a
  obtain ⟨db⟩ := b
  obtain ⟨dc⟩ := c
  show String.mk (da ++ db ++ dc) = String.mk (da ++ (db ++ dc))
  rw [List.append_assoc]

theorem map_encodeField_plain {comma : Char} {fs : List String}
    (h : fs.all (fun f => !fieldNeedsQuotes comma f) = true) :
    fs.map (encodeField comma) = fs := by
  induction fs with
  | nil => rfl
  | cons f fs ih =>
    rw [List.all_cons, Bool.and_eq_true, Bool.not_eq_true'] at h
    rw [List.map_cons, encodeField, if_neg (by simp [h.1]), ih h.2]

theorem encodeRows_eq (comma : Char) (g : Grid) :
    encodeRows comma g = strJoin (g.map (writeRecord comma)) := by
  induction g with
  | nil => rfl
  | cons r rs ih => rw [encodeRows, List.map_cons, strJoin, ih]

/-- C9: the encoder emits one record per row — fields byte-for-byte as
given whenever no field needs quoting — and one fully-empty record (a
bare newline) after each table as the blank-line separator; in
particular the two tables of the spec's example encode to exactly
"a,b\nc,d\n\n1\n2\n\n". -/
theorem Encode_spec (comma : Char) (fs : List String) (tables : List Table) :
    writeRecord comma [] = "\n"
    ∧ (fs.all (fun f => !fieldNeedsQuotes comma f) = true →
        writeRecord comma fs = joinSep (String.singleton comma) fs ++ "\n")
    ∧ Encode comma tables
        = strJoin (tables.map fun t => strJoin (t.Rows.map (writeRecord comma)) ++ "\n")
    ∧ Encode ',' [⟨1, "", "", [["a", "b"], ["c", "d"]]⟩, ⟨2, "", "", [["1"], ["2"]]⟩]
        = "a,b\nc,d\n\n1\n2\n\n" := by
  refine ⟨rfl, ?_, ?_, by decide⟩
  · intro h
    rw [writeRecord, map_encodeField_plain h]
  · induction tables with
    | nil => rfl
    | cons t ts ih =>
      rw [Encode, encodeRows_eq, List.map_cons, strJoin, ih,
        show writeRecord comma [] = "\n" from rfl]

/-- Witness for C9: plain fields are written exactly as given. -/
theorem Encode_spec_witness :
    (["a", "b"].all (fun f => !fieldNeedsQuotes ',' f) = true)
      ∧ writeRecord ',' ["a", "b"] = "a,b\n" := by
  refine ⟨by decide, ?_⟩
  rw [(Encode_spec ',' ["a", "b"] []).2.1 (by decide)]
  decide

/-! ## Claim C10 -/

theorem getD_take_of_lt (l : List String) {i n : Nat} (h : i < n) :
    (l.take n).getD i "" = l.getD i "" := by
  rw [List.getD_eq_getD_get?, List.getD_eq_getD_get?, List.get?_eq_getElem?,
    List.get?_eq_getElem?, List.getElem?_take_of_lt h]

/-- C10: in the fallback's data rows, an anchor whose trailing text
yields fewer than two whitespace tokens produces a row holding only the
anchor's trimmed text plus empty-string padding — a lone token such as
"-" lands in no field — and the row never depends on anything beyond the
first three tokens, so tokens after the third are ignored. -/
theorem dirRow_spec (text0 meta : String) (w : Nat) :
    ((fields meta).length < 2 →
        padTo w (dirRow text0 meta) = text0 :: List.replicate (w - 1) "")
    ∧ ∀ meta2, (fields meta).take 3 = (fields meta2).take 3 →
        dirRow text0 meta = dirRow text0 meta2 := by
  constructor
  · intro h
    rw [dirRow]
    rw [if_neg (by omega), if_neg (by omega), padTo]
    rfl
  · intro meta2 h
    have hlen : min 3 (fields meta).length = min 3 (fields meta2).length := by
      rw [← List.length_take, h, List.length_take]
    have h23 : ((2 ≤ (fields meta2).length) ↔ (2 ≤ (fields meta).length))
        ∧ ((3 ≤ (fields meta2).length) ↔ (3 ≤ (fields meta).length)) := by
      rw [Nat.min_def, Nat.min_def] at hlen
      split at hlen <;> split at hlen <;>
        refine ⟨⟨fun _ => by omega, fun _ => by omega⟩, ⟨fun _ => by omega, fun _ => by omega⟩⟩
    have hd : ∀ i, i < 3 → (fields meta).getD i "" = (fields meta2).getD i "" := by
      intro i hi
      rw [← getD_take_of_lt (fields meta) hi, h, getD_take_of_lt (fields meta2) hi]
    rw [dirRow, dirRow]
    rw [hd 0 (by omega), hd 1 (by omega), hd 2 (by omega)]
    simp only [h23.1, h23.2]

/-- Witness for C10: the happy-path "Parent Directory" row whose meta
text is the lone token "-". -/
theorem dirRow_spec_witness :
    (fields "-").length < 2
      ∧ padTo 4 (dirRow "Parent Directory" "-")
          = ["Parent Directory", "", "", ""] := by
  refine ⟨by decide, ?_⟩
  rw [(dirRow_spec "Parent Directory" "-" 4).1 (by decide)]
  decide

/-! ## Claim C5 -/

theorem strAppend_empty (s : String) : s ++ "" = s := by
  obtain ⟨d⟩ := s
  show String.mk (d ++ []) = String.mk d
  rw [List.append_nil]

/-- Counterexample to C5: in a document whose outer table holds a nested
table inside its only cell, the outer table's extracted grid has TWO
rows — the enclosing cell's text and, additionally, the nested row
itself, because the row walk descends into the nested table — so the
nested content does not enter the parent's rows only via the cell
text. -/
theorem nested_rows_counterexample :
    (Parse (nestedDoc "y")).map (fun t => (t.Index, t.Rows))
        = [(1, [["y"], ["y"]]), (2, [["y"]])]
      ∧ ((Parse (nestedDoc "y")).headD ⟨0, "", "", []⟩).Rows ≠ [["y"]] := by
  exact ⟨by decide, by decide⟩

/-- C5 as amended: a table nested inside a cell of another table enters
the parent's extraction twice — via the concatenated text of the
enclosing cell and as separately collected rows, since the row walk
recurses into nested tables — and the nested table is additionally
enumerated as its own record with the next sequential index. -/
theorem nested_table_spec (s : String) (h1 : trimSpace s = s) (h2 : s ≠ "") :
    Parse (nestedDoc s) = [⟨1, "", "", [[s], [s]]⟩, ⟨2, "", "", [[s]]⟩] := by
  have hbs : (s != "") = true := by simp [h2]
  simp [Parse, locatorTables, nestedDoc, walkNode, walkList, extractRows, collectRows,
    collectRowsList, trCells, childrenOf, isElem, textContent, textContentList,
    trimEmptyColumns, dropEmptyRows, normalize, maxCols, colKept, lastAttr,
    strAppend_empty, h1, hbs, h2, List.filterMap, List.range, List.range.loop]

/-- Witness for C5's amended statement at the concrete cell text "y". -/
theorem nested_table_spec_witness :
    trimSpace "y" = "y" ∧ ("y" : String) ≠ ""
      ∧ Parse (nestedDoc "y") = [⟨1, "", "", [["y"], ["y"]]⟩, ⟨2, "", "", [["y"]]⟩] :=
  ⟨by decide, by decide, nested_table_spec "y" (by decide) (by decide)⟩

end Html2Csv
